import Mathlib

/-!
Formal model of the STM32F4 bare-metal BLDC driver layer
(`src/Src/drivers`): TIM1 PWM synthesis, the USART2 ring-buffered
transport and its ISR, the ADC single-shot conversion handshake, the
EXTI pending-line dispatcher, and the SysTick clock.

Machine integers are modelled as `Nat` with an explicit `% 2^w`
wherever the C arithmetic can wrap; memory-mapped registers read by the
code (status registers, data register, down-counter) are passed as
explicit arguments, and register writes or side effects are returned as
values or as action traces.
-/

/-! ### PWM driver, `src/Src/drivers/pwm_tim1.c` -/

/-- Model of `pwm_tim1_set_duty` (pwm_tim1.c, lines 159-173).  The handle
carries the auto-reload value `arr`; `duty` is a compare value in timer
ticks, saturated to `[0, arr]`; `ch` selects CCR1..CCR3 and any other
channel fails.  Returns the CCR value written. -/
def pwm_tim1_set_duty (arr ch duty : Nat) : Option Nat :=
  let d := if duty > arr then arr else duty
  match ch with
  | 1 => some d
  | 2 => some d
  | 3 => some d
  | _ => none

/-- Prescaler search loop of `pwm_tim1_init` (pwm_tim1.c, lines 111-116):
increments `psc` while `half_ticks / (psc + 1) > 65535`, failing once
`psc = 0xFFFF` is reached with the quotient still too large.  The C loop
counter is a `uint16_t`; `fuel` counts the remaining loop iterations and
is `65535 - psc` at every call reachable from the entry point. -/
def pwm_find_psc (half_ticks : Nat) : Nat → Nat → Option Nat
  | psc, 0 => if half_ticks / (psc + 1) > 65535 then none else some psc
  | psc, fuel + 1 =>
    if half_ticks / (psc + 1) > 65535 then
      if psc = 65535 then none else pwm_find_psc half_ticks (psc + 1) fuel
    else some psc

/-- Arithmetic core of `pwm_tim1_init` (pwm_tim1.c, lines 97-120), the
part that validates clock/frequency/alignment and derives the prescaler
and auto-reload values (pointer and GPIO validation, and the register
writes that only copy these values out, are elided).  The product
`2u * pwm_hz` is `uint32_t` arithmetic, hence the `% 2^32`. -/
def pwm_tim1_init_compute (tim_clk_hz pwm_hz align : Nat) : Option (Nat × Nat) :=
  if tim_clk_hz = 0 ∨ pwm_hz = 0 then none
  else if align < 1 ∨ align > 3 then none
  else if tim_clk_hz / (2 * pwm_hz % 4294967296) < 2 then none
  else
    match pwm_find_psc (tim_clk_hz / (2 * pwm_hz % 4294967296)) 0 65535 with
    | none => none
    | some psc =>
      if tim_clk_hz / (2 * pwm_hz % 4294967296) / (psc + 1) - 1 > 65535 then none
      else some (psc, tim_clk_hz / (2 * pwm_hz % 4294967296) / (psc + 1) - 1)

/-! ### ADC driver, `src/Src/drivers/adc.c` -/

/-- ADC handle state (adc.h): last converted sample and the ready flag.
Hardware instance pointers are elided. -/
structure adc_handle_t where
  last_reading : Nat
  adc_data_ready : Bool
deriving DecidableEq

/-- Handle state established by `adc_init` (adc.c, lines 84-87). -/
def adc_init_state : adc_handle_t :=
  { last_reading := 0, adc_data_ready := false }

/-- Model of `adc_read` (adc.c, lines 108-122): returns the last sample
and clears the ready flag only when a completed-and-unread sample
exists; otherwise fails with no state change. -/
def adc_read (h : adc_handle_t) : Option Nat × adc_handle_t :=
  if h.adc_data_ready then
    (some h.last_reading, { h with adc_data_ready := false })
  else (none, h)

/-- Model of `adc_start` (adc.c, lines 100-104): clears the ready flag
(the SWSTART register write is elided). -/
def adc_start (h : adc_handle_t) : adc_handle_t :=
  { h with adc_data_ready := false }

/-- Model of `adc_irq_handler` (adc.c, lines 126-135).  `eoc` is the
`ADC_SR_EOC` status bit and `dr` the data-register value: on a completed
conversion the handler stores `DR & 0xFFFF` and sets the ready flag. -/
def adc_irq_handler (h : adc_handle_t) (eoc : Bool) (dr : Nat) : adc_handle_t :=
  if eoc then
    { h with last_reading := dr &&& 0xFFFF, adc_data_ready := true }
  else h

/-! ### SysTick driver, `src/Src/drivers/systick.c` -/

/-- Reload-value computation of `SYSTICK_Init` (systick.c, lines 26-62):
validates the inputs, computes `cycles_per_tick` exactly (the C code
widens to `uint64_t`, which cannot overflow for 32-bit inputs), and
returns the value programmed into `SysTick->LOAD`. -/
def SYSTICK_Init_load (sysclk_hz tick_period_us : Nat) : Option Nat :=
  if sysclk_hz = 0 then none
  else if tick_period_us = 0 then none
  else
    let cycles_per_tick := sysclk_hz * tick_period_us / 1000000
    if cycles_per_tick = 0 then none
    else if cycles_per_tick - 1 > 0xFFFFFF then none
    else some (cycles_per_tick - 1)

/-- Model of `SYSTICK_IrqHandler` (systick.c, lines 69-72): increments
the 32-bit tick counter. -/
def SYSTICK_IrqHandler (tick_count : Nat) : Nat :=
  (tick_count + 1) % 4294967296

/-- Model of `SYSTICK_GetTimeMs` (systick.c, lines 94-99):
`tick_count * tick_period_us / 1000`, computed in 64 bits (exact for
32-bit inputs) and truncated to `uint32_t` on return. -/
def SYSTICK_GetTimeMs (tick_count tick_period_us : Nat) : Nat :=
  tick_count * tick_period_us / 1000 % 4294967296

/-! ### Claim theorems: PWM duty, ADC handshake, SysTick init -/

/-- Tick-level behaviour of `pwm_tim1_set_duty`: on a valid channel the
compare value written is the duty argument saturated to `[0, arr]`. -/
theorem pwm_set_duty_saturates (arr ch duty : Nat)
    (hch : ch = 1 ∨ ch = 2 ∨ ch = 3) :
    pwm_tim1_set_duty arr ch duty = some (min duty arr) ∧
    min duty arr ≤ arr := by
  refine ⟨?_, Nat.min_le_right _ _⟩
  have hd : (if duty > arr then arr else duty) = min duty arr := by
    rcases Nat.lt_or_ge arr duty with h | h
    · simp [Nat.min_eq_right (Nat.le_of_lt h), h]
    · simp [Nat.min_eq_left h, Nat.not_lt.mpr h]
  rcases hch with h | h | h <;> subst h <;> simp [pwm_tim1_set_duty, hd]

/-- Model of `pwm_set_duty_permyriad` (src/Src/board/board.c, lines
40-48; declared in board.h): validates the channel (1..3, returning
without effect otherwise), clamps the permyriad argument to 10000,
converts it to timer ticks as
`(uint32_t)duty_permyriad * (uint32_t)arr / 10000u` (exact in 32 bits
for 16-bit inputs) truncated to `uint16_t`, and delegates to
`pwm_tim1_set_duty`.  Returns the CCR value written, `none` when
nothing is written. -/
def pwm_set_duty_permyriad (arr ch duty_permyriad : Nat) : Option Nat :=
  if ch < 1 ∨ ch > 3 then none
  else
    pwm_tim1_set_duty arr ch
      ((if duty_permyriad > 10000 then 10000 else duty_permyriad) * arr /
        10000 % 65536)

/-- Claim C1.  For every configured PWM handle with auto-reload value
`arr` (a 16-bit register value) and every duty argument, the
duty-setting operation `pwm_set_duty_permyriad` clamps the duty
argument to `[0, 10000]` permyriad and writes a compare value equal to
`floor(dutyPermyriad * arr / 10000)` saturated to `[0, arr]` (the
saturation never bites, since the scaled value is at most `arr`); in
particular, with `arr = 7999` a duty argument of `5000` yields compare
value `3999`. -/
theorem pwm_set_duty_permyriad_spec (arr ch duty_permyriad : Nat)
    (hch : 1 ≤ ch ∧ ch ≤ 3) (harr : arr ≤ 65535) :
    pwm_set_duty_permyriad arr ch duty_permyriad =
      some (min (min duty_permyriad 10000 * arr / 10000) arr) ∧
    min duty_permyriad 10000 * arr / 10000 ≤ arr ∧
    pwm_set_duty_permyriad 7999 1 5000 = some 3999 := by
  have hclamp : (if duty_permyriad > 10000 then 10000 else duty_permyriad) =
      min duty_permyriad 10000 := by
    rcases Nat.lt_or_ge 10000 duty_permyriad with h | h
    · simp [Nat.min_eq_right (Nat.le_of_lt h), h]
    · simp [Nat.min_eq_left h, Nat.not_lt.mpr h]
  have hle : min duty_permyriad 10000 * arr / 10000 ≤ arr := by
    have h1 : min duty_permyriad 10000 * arr ≤ 10000 * arr :=
      Nat.mul_le_mul_right arr (Nat.min_le_right _ _)
    have h2 : min duty_permyriad 10000 * arr / 10000 ≤ 10000 * arr / 10000 :=
      Nat.div_le_div_right h1
    rwa [Nat.mul_div_cancel_left arr (by norm_num)] at h2
  have hmod : min duty_permyriad 10000 * arr / 10000 % 65536 =
      min duty_permyriad 10000 * arr / 10000 :=
    Nat.mod_eq_of_lt (by omega)
  have hch3 : ch = 1 ∨ ch = 2 ∨ ch = 3 := by omega
  refine ⟨?_, hle, by decide⟩
  unfold pwm_set_duty_permyriad
  rw [if_neg (show ¬(ch < 1 ∨ ch > 3) by omega), hclamp, hmod,
    (pwm_set_duty_saturates arr ch _ hch3).1,
    Nat.min_eq_left hle]

/-- Witness for claim C1 at `arr = 7999`, `ch = 1`,
`duty_permyriad = 5000`: the written compare value is
`5000 * 7999 / 10000 = 3999`. -/
theorem pwm_set_duty_permyriad_spec_witness :
    pwm_set_duty_permyriad 7999 1 5000 = some 3999 :=
  (pwm_set_duty_permyriad_spec 7999 1 5000 ⟨by decide, by decide⟩
    (by decide)).2.2

/-- Claim C4.  For every ADC handle with no completed-and-unread sample,
`adc_read` fails without side effects; after `adc_irq_handler` runs once
with the end-of-conversion flag set, exactly one subsequent `adc_read`
succeeds, returns the stored sample, and clears the ready flag; a second
consecutive `adc_read` fails and leaves the handle unchanged. -/
theorem adc_read_handshake (h : adc_handle_t) (dr : Nat)
    (hready : h.adc_data_ready = false) :
    adc_read h = (none, h) ∧
    ((adc_read (adc_irq_handler h true dr)).1 = some (dr &&& 0xFFFF) ∧
      (adc_read (adc_irq_handler h true dr)).1 =
        some (adc_irq_handler h true dr).last_reading ∧
      (adc_read (adc_irq_handler h true dr)).2.adc_data_ready = false ∧
      adc_read (adc_read (adc_irq_handler h true dr)).2 =
        (none, (adc_read (adc_irq_handler h true dr)).2)) := by
  constructor
  · simp [adc_read, hready]
  · simp [adc_read, adc_irq_handler]

/-- Witness for claim C4: the freshly initialised handle and a sample
value of `1234`. -/
theorem adc_read_handshake_witness :
    adc_read adc_init_state = (none, adc_init_state) ∧
    (adc_read (adc_irq_handler adc_init_state true 1234)).1 = some 1234 := by
  have h := adc_read_handshake adc_init_state 1234 rfl
  exact ⟨h.1, by simpa using h.2.1⟩

set_option maxRecDepth 4000 in
/-- Claim C7.  `SYSTICK_Init` fails exactly when
`cycles_per_tick = sysclk * period / 10^6` is zero or
`cycles_per_tick - 1` exceeds the 24-bit reload width, and otherwise
programs the reload value `cycles_per_tick - 1`; initialising with a
16 MHz core clock and a 1000 us tick yields reload `15999`, and after
100 tick interrupts `SYSTICK_GetTimeMs` returns `100`. -/
theorem systick_init_spec (sysclk_hz tick_period_us : Nat) :
    (SYSTICK_Init_load sysclk_hz tick_period_us = none ↔
      sysclk_hz * tick_period_us / 1000000 = 0 ∨
      sysclk_hz * tick_period_us / 1000000 - 1 > 0xFFFFFF) ∧
    (∀ l, SYSTICK_Init_load sysclk_hz tick_period_us = some l →
      l = sysclk_hz * tick_period_us / 1000000 - 1) ∧
    SYSTICK_Init_load 16000000 1000 = some 15999 ∧
    SYSTICK_GetTimeMs (SYSTICK_IrqHandler^[100] 0) 1000 = 100 := by
  refine ⟨?_, ?_, by decide, ?_⟩
  · unfold SYSTICK_Init_load
    split_ifs <;> simp_all <;> omega
  · intro l hl
    unfold SYSTICK_Init_load at hl
    split_ifs at hl <;> simp_all
  · decide

/-- Witness for claim C7 at the 16 MHz / 1000 us configuration. -/
theorem systick_init_spec_witness :
    SYSTICK_Init_load 16000000 1000 = some 15999 ∧
    (15999 : Nat) = 16000000 * 1000 / 1000000 - 1 := by
  have h := systick_init_spec 16000000 1000
  exact ⟨h.2.2.1, h.2.1 15999 h.2.2.1⟩

/-! ### Claim C3: prescaler and auto-reload derivation -/

/-- Characterisation of the prescaler search loop.  Starting at `psc`
with `psc + fuel = 65535` and every prescaler below `psc` already known
to overflow the 16-bit width, a successful search yields the smallest
in-range prescaler whose quotient fits, and a failed search means no
prescaler in `[0, 65535]` fits. -/
theorem pwm_find_psc_spec (half : Nat) :
    ∀ fuel psc, psc + fuel = 65535 →
    (∀ q, q < psc → half / (q + 1) > 65535) →
    (∀ p, pwm_find_psc half psc fuel = some p →
      p ≤ 65535 ∧ half / (p + 1) ≤ 65535 ∧
        ∀ q, q < p → half / (q + 1) > 65535) ∧
    (pwm_find_psc half psc fuel = none →
      ∀ q, q ≤ 65535 → half / (q + 1) > 65535) := by
  intro fuel
  induction fuel with
  | zero =>
    intro psc hpf hinv
    have hpsc : psc = 65535 := by omega
    subst hpsc
    constructor
    · intro p hp
      simp only [pwm_find_psc] at hp
      split_ifs at hp with hgt
      injection hp with hp
      subst hp
      exact ⟨Nat.le_refl _, Nat.le_of_not_lt hgt, hinv⟩
    · intro hn q hq
      simp only [pwm_find_psc] at hn
      split_ifs at hn with hgt
      rcases Nat.lt_or_ge q 65535 with h | h
      · exact hinv q h
      · have hq65 : q = 65535 := by omega
        rw [hq65]
        exact hgt
  | succ f ih =>
    intro psc hpf hinv
    have hinv2 : half / (psc + 1) > 65535 →
        ∀ q, q < psc + 1 → half / (q + 1) > 65535 := by
      intro hgt q hq
      rcases Nat.lt_or_ge q psc with h | h
      · exact hinv q h
      · have hqe : q = psc := by omega
        rw [hqe]
        exact hgt
    constructor
    · intro p hp
      simp only [pwm_find_psc] at hp
      split_ifs at hp with hgt hpsc
      · exact (ih (psc + 1) (by omega) (hinv2 hgt)).1 p hp
      · injection hp with hp
        subst hp
        exact ⟨by omega, Nat.le_of_not_lt hgt, hinv⟩
    · intro hn q hq
      simp only [pwm_find_psc] at hn
      split_ifs at hn with hgt hpsc
      · omega
      · exact (ih (psc + 1) (by omega) (hinv2 hgt)).2 hn q hq

/-- Claim C3, counterexample.  At `tim_clk_hz = 16000000` and
`pwm_hz = 2^31 + 1` the `uint32` product `2u * pwm_hz` wraps to 2
(defined C behaviour, no division by zero), so the code computes
`half_ticks = 8000000` and succeeds with `psc = 122`, `arr = 65039`,
while the claim's exact formula gives
`halfTicks = 16000000 / (2 * (2^31 + 1)) = 0 < 2` and demands failure:
the claim does not hold for every `targetFreqHz > 0`. -/
theorem pwm_init_compute_counterexample :
    pwm_tim1_init_compute 16000000 2147483649 1 = some (122, 65039) ∧
    (16000000 / (2 * 2147483649) : Nat) < 2 := by
  exact ⟨by decide, by decide⟩

/-- Claim C3, amended.  In center-aligned mode with a positive counter
clock and a positive target frequency below `2^31` (so that the
`uint32` product `2 * pwm_hz` does not wrap), `pwm_tim1_init` computes
`half_ticks = tim_clk_hz / (2 * pwm_hz)`, fails when `half_ticks < 2`,
otherwise selects the smallest prescaler whose quotient fits the 16-bit
counter width and sets `arr = half_ticks / (psc + 1) - 1`, failing when
no prescaler in `[0, 65535]` suffices; at a 16 MHz clock and 1 kHz PWM
the result is `psc = 0`, `arr = 7999`. -/
theorem pwm_init_compute_spec (tim_clk_hz pwm_hz align : Nat) :
    (0 < tim_clk_hz → 0 < pwm_hz → pwm_hz < 2147483648 →
      1 ≤ align → align ≤ 3 → tim_clk_hz / (2 * pwm_hz) < 2 →
      pwm_tim1_init_compute tim_clk_hz pwm_hz align = none) ∧
    (∀ psc arr, pwm_hz < 2147483648 →
      pwm_tim1_init_compute tim_clk_hz pwm_hz align = some (psc, arr) →
      tim_clk_hz / (2 * pwm_hz) / (psc + 1) ≤ 65535 ∧
      (∀ q, q < psc → tim_clk_hz / (2 * pwm_hz) / (q + 1) > 65535) ∧
      arr = tim_clk_hz / (2 * pwm_hz) / (psc + 1) - 1) ∧
    ((∀ q, q ≤ 65535 →
        tim_clk_hz / (2 * pwm_hz % 4294967296) / (q + 1) > 65535) →
      pwm_tim1_init_compute tim_clk_hz pwm_hz align = none) ∧
    pwm_tim1_init_compute 16000000 1000 1 = some (0, 7999) := by
  refine ⟨?_, ?_, ?_, by decide⟩
  · intro hclk hhz hhz31 ha1 ha3 hhalf
    have hmod : 2 * pwm_hz % 4294967296 = 2 * pwm_hz :=
      Nat.mod_eq_of_lt (by omega)
    simp [pwm_tim1_init_compute, hmod, hhalf]
  · intro psc arr hhz31 hsome
    have hmod : 2 * pwm_hz % 4294967296 = 2 * pwm_hz :=
      Nat.mod_eq_of_lt (by omega)
    unfold pwm_tim1_init_compute at hsome
    rw [hmod] at hsome
    split_ifs at hsome with h1 h2 h3
    rcases hfind : pwm_find_psc (tim_clk_hz / (2 * pwm_hz)) 0 65535 with _ | p
    · rw [hfind] at hsome
      simp at hsome
    · rw [hfind] at hsome
      dsimp only at hsome
      split_ifs at hsome with h4
      have hspec :=
        ((pwm_find_psc_spec (tim_clk_hz / (2 * pwm_hz)) 65535 0 (by omega)
          (by omega)).1) p hfind
      simp only [Option.some.injEq, Prod.mk.injEq] at hsome
      obtain ⟨hp, harr⟩ := hsome
      subst hp
      exact ⟨hspec.2.1, hspec.2.2, harr.symm⟩
  · intro hall
    rcases hfind : pwm_find_psc (tim_clk_hz / (2 * pwm_hz % 4294967296)) 0 65535
        with _ | p
    · simp [pwm_tim1_init_compute, hfind]
    · have hspec :=
        ((pwm_find_psc_spec (tim_clk_hz / (2 * pwm_hz % 4294967296)) 65535 0
          (by omega) (by omega)).1) p hfind
      have hcontra := hall p hspec.1
      exact absurd hcontra (by omega)

/-- Witness for claim C3: the 16 MHz / 1 kHz configuration succeeds with
`(psc, arr) = (0, 7999)`, and a 1 Hz clock at 1 Hz PWM is rejected as
too fast to represent. -/
theorem pwm_init_compute_spec_witness :
    pwm_tim1_init_compute 16000000 1000 1 = some (0, 7999) ∧
    pwm_tim1_init_compute 1 1 1 = none :=
  ⟨(pwm_init_compute_spec 16000000 1000 1).2.2.2,
    (pwm_init_compute_spec 1 1 1).1 (by decide) (by decide) (by decide)
      (by decide) (by decide) (by decide)⟩

/-! ### Claim C8: bounded-retry microsecond timestamp -/

/-- Retry loop of `SYSTICK_GetTimeUs` (systick.c, lines 114-131).  Reads
of shared state are modelled as streams: `t k` is the value returned by
the k-th read of `tick_count` and `v i` the value returned by the i-th
read of `SysTick->VAL` (the tick ISR may change `tick_count` between any
two reads).  `i` is the loop index; the second argument counts the
remaining iterations (3 at entry).  On the first pair of agreeing tick
samples the combined 64-bit timestamp is returned; after the retry
budget is exhausted the fallback reads `tick_count` once more and
returns the tick-only value. -/
def SYSTICK_GetTimeUs_loop (sysclk_hz tick_period_us load : Nat)
    (t v : Nat → Nat) : Nat → Nat → Nat
  | i, 0 => t (2 * i) % 4294967296 * (tick_period_us % 4294967296)
  | i, fuel + 1 =>
    if t (2 * i) % 4294967296 = t (2 * i + 1) % 4294967296 then
      (t (2 * i) % 4294967296 * (tick_period_us % 4294967296) +
        (load % 4294967296 + (4294967296 - v i % 4294967296)) % 4294967296 *
          1000000 / sysclk_hz) % 18446744073709551616
    else SYSTICK_GetTimeUs_loop sysclk_hz tick_period_us load t v (i + 1) fuel

/-- Model of `SYSTICK_GetTimeUs`: up to 3 double-samples starting at
loop index 0. -/
def SYSTICK_GetTimeUs (sysclk_hz tick_period_us load : Nat)
    (t v : Nat → Nat) : Nat :=
  SYSTICK_GetTimeUs_loop sysclk_hz tick_period_us load t v 0 3

/-- Combined sub-tick timestamp produced by attempt `i` of
`SYSTICK_GetTimeUs`: coarse tick microseconds plus the elapsed cycles
within the tick (`load - val`, 32-bit wrapping subtraction) converted to
microseconds. -/
def systick_combined (sysclk_hz tick_period_us load : Nat)
    (t v : Nat → Nat) (i : Nat) : Nat :=
  (t (2 * i) * tick_period_us +
    (load + (4294967296 - v i % 4294967296)) % 4294967296 * 1000000 /
      sysclk_hz) % 18446744073709551616

/-- Claim C8.  `SYSTICK_GetTimeUs` attempts at most 3 double-samples of
the tick counter around the down-counter read, returns the combined
sub-tick timestamp at the first pair of agreeing tick samples, and when
all 3 attempts disagree returns the tick-only-precision fallback instead
of retrying further (bounded execution). -/
theorem systick_get_time_us_spec (sysclk_hz tick_period_us load : Nat)
    (t v : Nat → Nat) (ht : ∀ k, t k < 4294967296)
    (hp : tick_period_us < 4294967296) (hl : load < 4294967296) :
    (t 0 = t 1 →
      SYSTICK_GetTimeUs sysclk_hz tick_period_us load t v =
        systick_combined sysclk_hz tick_period_us load t v 0) ∧
    (t 0 ≠ t 1 → t 2 = t 3 →
      SYSTICK_GetTimeUs sysclk_hz tick_period_us load t v =
        systick_combined sysclk_hz tick_period_us load t v 1) ∧
    (t 0 ≠ t 1 → t 2 ≠ t 3 → t 4 = t 5 →
      SYSTICK_GetTimeUs sysclk_hz tick_period_us load t v =
        systick_combined sysclk_hz tick_period_us load t v 2) ∧
    (t 0 ≠ t 1 → t 2 ≠ t 3 → t 4 ≠ t 5 →
      SYSTICK_GetTimeUs sysclk_hz tick_period_us load t v =
        t 6 * tick_period_us) := by
  have hm : ∀ k, t k % 4294967296 = t k := fun k => Nat.mod_eq_of_lt (ht k)
  have hpm : tick_period_us % 4294967296 = tick_period_us :=
    Nat.mod_eq_of_lt hp
  have hlm : load % 4294967296 = load := Nat.mod_eq_of_lt hl
  refine ⟨?_, ?_, ?_, ?_⟩
  · intro h01
    simp only [SYSTICK_GetTimeUs, SYSTICK_GetTimeUs_loop, systick_combined,
      hm, hpm, hlm]
    norm_num [h01]
  · intro h01 h23
    simp only [SYSTICK_GetTimeUs, SYSTICK_GetTimeUs_loop, systick_combined,
      hm, hpm, hlm]
    norm_num [h01, h23]
  · intro h01 h23 h45
    simp only [SYSTICK_GetTimeUs, SYSTICK_GetTimeUs_loop, systick_combined,
      hm, hpm, hlm]
    norm_num [h01, h23, h45]
  · intro h01 h23 h45
    simp only [SYSTICK_GetTimeUs, SYSTICK_GetTimeUs_loop, hm, hpm]
    norm_num [h01, h23, h45]

/-- Witness for claim C8: with distinct tick samples at every read the
fallback tick-only value is returned, and with a constant tick counter
the first attempt succeeds. -/
theorem systick_get_time_us_spec_witness :
    SYSTICK_GetTimeUs 1 7 10 (fun k => k % 100) (fun _ => 0) = 6 * 7 ∧
    SYSTICK_GetTimeUs 1 7 10 (fun _ => 5) (fun _ => 0) =
      systick_combined 1 7 10 (fun _ => 5) (fun _ => 0) 0 := by
  constructor
  · exact (systick_get_time_us_spec 1 7 10 (fun k => k % 100) (fun _ => 0)
      (fun k => by show k % 100 < 4294967296; omega)
      (by decide) (by decide)).2.2.2 (by decide) (by decide) (by decide)
  · exact (systick_get_time_us_spec 1 7 10 (fun _ => 5) (fun _ => 0)
      (fun k => by show (5 : Nat) < 4294967296; decide)
      (by decide) (by decide)).1 rfl

/-! ### Claim C9: baud-rate divisor -/

/-- Model of `baud_rate_config` (usart2.c, lines 21-37).  All arithmetic
is `uint32_t`; `% 2^32` marks the operations that can wrap (the sum
`rem + (baud >> 1)`, the carry increment, and the shift `mantissa << 4`).
A null configuration or zero baud returns 0. -/
def baud_rate_config (usart_pclk_hz usart_baud : Nat) : Nat :=
  if usart_baud = 0 then 0
  else if (usart_pclk_hz % (16 * usart_baud % 4294967296) + usart_baud / 2) %
      4294967296 / usart_baud ≥ 16 then
    (0 &&& 15) |||
      ((usart_pclk_hz / (16 * usart_baud % 4294967296) + 1) % 4294967296 * 16 %
        4294967296)
  else
    ((usart_pclk_hz % (16 * usart_baud % 4294967296) + usart_baud / 2) %
        4294967296 / usart_baud &&& 15) |||
      (usart_pclk_hz / (16 * usart_baud % 4294967296) * 16 % 4294967296)

/-- Divisor formula of claim C9, written from the spec sentence:
`mantissa = pclk / (16 * baud)`, `fraction = round(rem / baud)` rounded
to the nearest integer with halves up (computed exactly as
`(2 * rem + baud) / (2 * baud)`), carry into the mantissa when the
fraction rounds to 16, packed as
`(fraction &&& 0xF) ||| (mantissa <<< 4)`. -/
def brr_spec (pclk baud : Nat) : Nat :=
  if (2 * (pclk % (16 * baud)) + baud) / (2 * baud) = 16 then
    (0 &&& 15) ||| ((pclk / (16 * baud) + 1) <<< 4)
  else
    ((2 * (pclk % (16 * baud)) + baud) / (2 * baud) &&& 15) |||
      ((pclk / (16 * baud)) <<< 4)

/-- Claim C9, counterexample.  At `pclk = 2^32 - 17` and
`baud = 2^28 - 1` the intermediate sum `rem + baud/2` wraps past 2^32,
so `baud_rate_config` returns 0 while the claimed formula (whose
fraction rounds to 16 and carries) gives 16: the claim does not hold for
every `baud > 0`. -/
theorem baud_rate_config_counterexample :
    baud_rate_config 4294967279 268435455 = 0 ∧
    brr_spec 4294967279 268435455 = 16 ∧
    baud_rate_config 4294967279 268435455 ≠ brr_spec 4294967279 268435455 := by
  refine ⟨by decide, by decide, by decide⟩

/-- Rounding identity: adding half the divisor before truncating equals
round-to-nearest with halves rounding up. -/
theorem div_add_half_eq_round (b r : Nat) (hb : 0 < b) :
    (r + b / 2) / b = (2 * r + b) / (2 * b) := by
  have hmod := Nat.div_add_mod r b
  set q := r / b with hq
  set s := r % b with hs
  have hslt : s < b := Nat.mod_lt r hb
  have e1 : r + b / 2 = s + b / 2 + b * q := by rw [← hmod]; ring
  have e2 : 2 * r + b = 2 * s + b + 2 * b * q := by rw [← hmod]; ring
  rw [e1, e2, Nat.add_mul_div_left _ _ hb,
    Nat.add_mul_div_left _ _ (by omega : 0 < 2 * b)]
  have e3 : (s + b / 2) / b = (2 * s + b) / (2 * b) := by
    rcases Nat.lt_or_ge (2 * s) b with h | h
    · rw [Nat.div_eq_of_lt (by omega), Nat.div_eq_of_lt (by omega)]
    · have u1 : (s + b / 2) / b = 1 := by
        apply Nat.div_eq_of_lt_le (by omega)
        omega
      have u2 : (2 * s + b) / (2 * b) = 1 := by
        apply Nat.div_eq_of_lt_le (by omega)
        omega
      rw [u1, u2]
  rw [e3]

/-- Claim C9, amended.  For every 32-bit `pclk` and `baud > 0` such that
the intermediate 32-bit computations do not overflow (`16 * baud < 2^32`
and `pclk % (16 * baud) + baud / 2 < 2^32`), the divisor is computed as
`mantissa = pclk / (16 * baud)` and
`fraction = round((pclk % (16 * baud)) / baud)`, with the fraction reset
to 0 and the mantissa incremented whenever the fraction rounds to 16,
packed as `(fraction &&& 0xF) ||| (mantissa <<< 4)`. -/
theorem baud_rate_config_spec (pclk baud : Nat) (hp : pclk < 4294967296)
    (hb : 0 < baud) (hb16 : 16 * baud < 4294967296)
    (hsum : pclk % (16 * baud) + baud / 2 < 4294967296) :
    baud_rate_config pclk baud = brr_spec pclk baud := by
  have h16 : 16 * baud % 4294967296 = 16 * baud := Nat.mod_eq_of_lt hb16
  have hfrac : (pclk % (16 * baud) + baud / 2) % 4294967296 / baud =
      (2 * (pclk % (16 * baud)) + baud) / (2 * baud) := by
    rw [Nat.mod_eq_of_lt hsum, div_add_half_eq_round baud _ hb]
  have hfle : (2 * (pclk % (16 * baud)) + baud) / (2 * baud) ≤ 16 := by
    have hrem : pclk % (16 * baud) < 16 * baud :=
      Nat.mod_lt pclk (by omega)
    have h17 : 2 * (pclk % (16 * baud)) + baud < 17 * (2 * baud) := by omega
    have hdiv := (Nat.div_lt_iff_lt_mul
      (show 0 < 2 * baud by omega)).mpr h17
    omega
  have hmlt : pclk / (16 * baud) < 268435456 := by
    have h1 : pclk / (16 * baud) ≤ pclk / 16 :=
      Nat.div_le_div_left (by omega) (by omega)
    have h2 : pclk / 16 < 268435456 := by omega
    omega
  unfold baud_rate_config brr_spec
  rw [if_neg (by omega : ¬baud = 0), h16, hfrac]
  rcases Nat.lt_or_ge ((2 * (pclk % (16 * baud)) + baud) / (2 * baud)) 16
    with hlt | hge
  · rw [if_neg (by omega), if_neg (by omega),
      Nat.mod_eq_of_lt (show pclk / (16 * baud) * 16 < 4294967296 by omega),
      Nat.shiftLeft_eq]
  · have hf16 : (2 * (pclk % (16 * baud)) + baud) / (2 * baud) = 16 := by
      omega
    have hb2 : 2 ≤ baud := by
      by_contra hb1
      have hbe : baud = 1 := by omega
      have hrem : pclk % (16 * baud) < 16 := by
        have := Nat.mod_lt pclk (show 0 < 16 * baud by omega)
        omega
      rw [hbe] at hf16
      omega
    have hm2 : pclk / (16 * baud) + 1 ≤ 134217728 := by
      have h1 : pclk / (16 * baud) ≤ pclk / 32 :=
        Nat.div_le_div_left (by omega) (by omega)
      have h2 : pclk / 32 < 134217728 := by omega
      omega
    rw [if_pos (by omega), if_pos hf16,
      Nat.mod_eq_of_lt (show pclk / (16 * baud) + 1 < 4294967296 by omega),
      Nat.mod_eq_of_lt (show (pclk / (16 * baud) + 1) * 16 < 4294967296 by omega),
      Nat.shiftLeft_eq]

/-- Witness for the amended claim C9 at `pclk = 16 MHz`,
`baud = 115200`. -/
theorem baud_rate_config_spec_witness :
    baud_rate_config 16000000 115200 = brr_spec 16000000 115200 :=
  baud_rate_config_spec 16000000 115200 (by decide) (by decide) (by decide)
    (by decide)

/-! ### USART2 ring buffer and write path, `src/Src/drivers/usart2.c` -/

/-- TX/RX ring buffer (usart2.h, lines 34-39): 256-byte storage
(`UART_BUFFER_SIZE = 256`, `BUFFER_MASK = 255`), head and tail indices
and a 16-bit drop counter.  The byte array is modelled as a function
from index to stored byte. -/
structure ring_buffer_t where
  buffer_array : Nat → Nat
  head : Nat
  tail : Nat
  drop_cnt : Nat

/-- Enqueue loop of `usart2_write` (usart2.c, lines 94-127), one
recursive step per loop iteration: bytes are pushed one at a time; when
the next head index `(head + 1) &&& BUFFER_MASK` reaches the tail the
buffer is full, the drop counter is bumped by the number of bytes that
could not be enqueued (`len - write_cnt`, 16-bit wrapping add) and the
loop stops without wrapping.  Returns the updated buffer and the count
actually enqueued.  The pointer checks and the TXEIE arming, which do
not touch the ring buffer, are elided; the `len = 0` early return
coincides with the empty-list case. -/
def usart2_write (rb : ring_buffer_t) : List Nat → ring_buffer_t × Nat
  | [] => (rb, 0)
  | b :: rest =>
    if (rb.head + 1) % 256 = rb.tail then
      ({ rb with drop_cnt := (rb.drop_cnt + (b :: rest).length) % 65536 }, 0)
    else
      ((usart2_write
        { rb with
          buffer_array := fun i => if i = rb.head then b else rb.buffer_array i,
          head := (rb.head + 1) % 256 } rest).1,
       (usart2_write
        { rb with
          buffer_array := fun i => if i = rb.head then b else rb.buffer_array i,
          head := (rb.head + 1) % 256 } rest).2 + 1)

/-- Free slots of a ring buffer: the number of bytes that can still be
pushed before `(head + 1) % 256` meets `tail` (usable capacity 255 on
the 256-byte buffer). -/
def rb_free (rb : ring_buffer_t) : Nat :=
  (rb.tail + 255 - rb.head) % 256

/-- Full characterisation of the `usart2_write` enqueue loop on any
in-range buffer state: the returned count is `min len free`, the drop
counter grows by the number of dropped bytes (16-bit wrap), tail is
untouched, head advances by the count, exactly the `count` written slots
change, and slot `(head + i) % 256` receives byte `i`. -/
theorem usart2_write_loop_spec (data : List Nat) :
    ∀ rb : ring_buffer_t, rb.head < 256 → rb.tail < 256 →
      rb.drop_cnt < 65536 →
    (usart2_write rb data).2 = min data.length (rb_free rb) ∧
    (usart2_write rb data).1.drop_cnt =
      (rb.drop_cnt + (data.length - min data.length (rb_free rb))) % 65536 ∧
    (usart2_write rb data).1.tail = rb.tail ∧
    (usart2_write rb data).1.head =
      (rb.head + min data.length (rb_free rb)) % 256 ∧
    (∀ p, (∀ i, i < min data.length (rb_free rb) →
        p ≠ (rb.head + i) % 256) →
      (usart2_write rb data).1.buffer_array p = rb.buffer_array p) ∧
    (∀ i, i < min data.length (rb_free rb) →
      (usart2_write rb data).1.buffer_array ((rb.head + i) % 256) =
        data.getD i 0) := by
  induction data with
  | nil =>
    intro rb hh ht hd
    refine ⟨by simp [usart2_write], ?_, rfl, ?_, fun p _ => rfl, ?_⟩
    · simp [usart2_write, Nat.mod_eq_of_lt hd]
    · simp [usart2_write, Nat.mod_eq_of_lt hh]
    · intro i hi
      simp at hi
  | cons b rest ih =>
    intro rb hh ht hd
    by_cases hfull : (rb.head + 1) % 256 = rb.tail
    · have hfree : rb_free rb = 0 := by
        unfold rb_free
        omega
      simp only [usart2_write, if_pos hfull]
      refine ⟨by simp [hfree], by simp [hfree], by intros; trivial,
        by simp [hfree, Nat.mod_eq_of_lt hh], by intros; trivial, ?_⟩
      intro i hi
      simp [hfree] at hi
    · have hfree : 0 < rb_free rb := by
        unfold rb_free
        omega
      have hfree255 : rb_free rb ≤ 255 := by
        unfold rb_free
        omega
      set rb1 : ring_buffer_t :=
        { rb with
          buffer_array := fun i => if i = rb.head then b else rb.buffer_array i,
          head := (rb.head + 1) % 256 } with hrb1
      have hh1 : rb1.head < 256 := by
        simp [hrb1]
        omega
      have hfree1 : rb_free rb1 = rb_free rb - 1 := by
        simp only [rb_free, hrb1]
        omega
      obtain ⟨ihc, ihd, iht, ihh, ihf, ihw⟩ := ih rb1 hh1 ht hd
      have hm1 : min rest.length (rb_free rb1) =
          min (rest.length + 1) (rb_free rb) - 1 := by
        rw [hfree1]
        omega
      have hmpos : 0 < min (rest.length + 1) (rb_free rb) := by
        omega
      have hpos : ∀ i : Nat, (rb1.head + i) % 256 = (rb.head + (1 + i)) % 256 := by
        intro i
        have : rb1.head = (rb.head + 1) % 256 := rfl
        rw [this, Nat.mod_add_mod, Nat.add_assoc]
      simp only [usart2_write, if_neg hfull, List.length_cons, ← hrb1]
      refine ⟨?_, ?_, iht, ?_, ?_, ?_⟩
      · rw [ihc]
        omega
      · rw [ihd]
        have hdc : rb1.drop_cnt = rb.drop_cnt := rfl
        rw [hdc]
        congr 1
        omega
      · rw [ihh, hpos]
        congr 1
        omega
      · intro p hp
        have hstep : (usart2_write rb1 rest).1.buffer_array p =
            rb1.buffer_array p := by
          apply ihf
          intro i hi
          rw [hpos]
          exact hp (1 + i) (by omega)
        rw [hstep]
        have hphead : p ≠ rb.head := by
          have := hp 0 hmpos
          rwa [Nat.add_zero, Nat.mod_eq_of_lt hh] at this
        simp [hrb1, hphead]
      · intro i hi
        match i with
        | 0 =>
          have hstep : (usart2_write rb1 rest).1.buffer_array rb.head =
              rb1.buffer_array rb.head := by
            apply ihf
            intro j hj
            rw [hpos]
            intro habs
            have hj254 : 1 + j ≤ 255 := by omega
            omega
          rw [Nat.add_zero, Nat.mod_eq_of_lt hh, hstep]
          simp [hrb1]
        | Nat.succ k =>
          have hk : k < min rest.length (rb_free rb1) := by omega
          have := ihw k hk
          rw [hpos] at this
          have hrw : rb.head + (1 + k) = rb.head + (k + 1) := by omega
          rw [hrw] at this
          exact this

/-- Ring buffer state established by `usart2_init` (usart2.c, lines
50-60): zeroed storage, head = tail = 0, drop counter 0. -/
def init_ring_buffer : ring_buffer_t :=
  { buffer_array := fun _ => 0, head := 0, tail := 0, drop_cnt := 0 }

/-- Claim C2.  For every serial write of `n` bytes into a TX ring buffer
of size 256 (usable capacity 255), the write enqueues bytes one at a
time until the buffer is full, stops early without wrapping or
overwriting (the returned count never exceeds the free space, and no
slot outside the `k` written ones changes), returns the count `k`
actually enqueued, and bumps the drop counter by exactly `n - k`
(16-bit counter); with 300 bytes queued into an empty, undrained buffer
the returned count is 255 and the drop counter increases by
`300 - 255 = 45`. -/
theorem usart2_write_spec (rb : ring_buffer_t) (data : List Nat)
    (hh : rb.head < 256) (ht : rb.tail < 256) (hd : rb.drop_cnt < 65536) :
    (usart2_write rb data).2 = min data.length (rb_free rb) ∧
    (usart2_write rb data).2 ≤ data.length ∧
    (usart2_write rb data).2 ≤ rb_free rb ∧
    (usart2_write rb data).1.drop_cnt =
      (rb.drop_cnt + (data.length - (usart2_write rb data).2)) % 65536 ∧
    (usart2_write rb data).1.tail = rb.tail ∧
    (∀ i, i < (usart2_write rb data).2 →
      (usart2_write rb data).1.buffer_array ((rb.head + i) % 256) =
        data.getD i 0) ∧
    (∀ p, (∀ i, i < (usart2_write rb data).2 → p ≠ (rb.head + i) % 256) →
      (usart2_write rb data).1.buffer_array p = rb.buffer_array p) ∧
    (data.length = 300 → rb.head = rb.tail → rb.drop_cnt = 0 →
      (usart2_write rb data).2 = 255 ∧
      (usart2_write rb data).1.drop_cnt = 45) := by
  obtain ⟨hc, hdc, htl, hhd, hf, hw⟩ := usart2_write_loop_spec data rb hh ht hd
  refine ⟨hc, by omega, by omega, by rw [hdc, hc], htl, ?_, ?_, ?_⟩
  · intro i hi
    exact hw i (by omega)
  · intro p hp
    apply hf
    intro i hi
    exact hp i (by omega)
  · intro hlen hempty hdrop
    have hfree : rb_free rb = 255 := by
      unfold rb_free
      omega
    constructor
    · rw [hc, hlen, hfree]
      omega
    · rw [hdc, hlen, hfree, hdrop]
      norm_num

/-- Witness for claim C2: 300 bytes of value 7 into the freshly
initialised (empty) buffer return count 255 and drop counter 45. -/
theorem usart2_write_spec_witness :
    (usart2_write init_ring_buffer (List.replicate 300 7)).2 = 255 ∧
    (usart2_write init_ring_buffer (List.replicate 300 7)).1.drop_cnt = 45 :=
  (usart2_write_spec init_ring_buffer (List.replicate 300 7) (by decide)
    (by decide) (by decide)).2.2.2.2.2.2.2 (by rw [List.length_replicate])
    rfl rfl

/-! ### USART2 interrupt service routine -/

/-- USART2 status-register flags (`USART2->SR`) sampled by the ISR at
entry: overrun, framing, noise, parity, receive-not-empty,
transmit-empty. -/
structure usart2_sr_t where
  ore : Bool
  fe : Bool
  ne : Bool
  pe : Bool
  rxne : Bool
  txe : Bool

/-- Data-register accesses performed by the ISR, in program order. -/
inductive usart_action_t where
  | readDR : usart_action_t
  | writeDR : Nat → usart_action_t
deriving DecidableEq

/-- USART2 handle (usart2.h, lines 60-69): RX and TX ring buffers and
four 32-bit line-error counters. -/
structure usart2_handle_t where
  rx_buffer : ring_buffer_t
  tx_buffer : ring_buffer_t
  err_ore_cnt : Nat
  err_fe_cnt : Nat
  err_ne_cnt : Nat
  err_pe_cnt : Nat

/-- Model of `usart2_irq_handler` (usart2.c, lines 156-236).  `sr` is
the status register sampled at entry, `txeie` the `CR1.TXEIE` bit at
entry, and `dr` the value a read of `USART2->DR` returns.  Result: the
updated handle, the new `TXEIE` bit, and the data-register accesses in
order.  Each set line-error flag increments its counter and the RX drop
counter; on any error `DR` is read once to clear the error and the byte
is discarded, and the receive-not-empty path is skipped (mutually
exclusive `else if`); otherwise a pending received byte is enqueued, or
counted as dropped when the RX buffer is full.  Independently,
transmit-empty with `TXEIE` set pops one TX byte into `DR`, or disables
`TXEIE` when the TX buffer is empty. -/
def usart2_irq_handler (h : usart2_handle_t) (sr : usart2_sr_t)
    (txeie : Bool) (dr : Nat) :
    usart2_handle_t × Bool × List usart_action_t :=
  let h1 := if sr.ore then
      { h with err_ore_cnt := (h.err_ore_cnt + 1) % 4294967296,
               rx_buffer := { h.rx_buffer with
                 drop_cnt := (h.rx_buffer.drop_cnt + 1) % 65536 } }
    else h
  let h2 := if sr.fe then
      { h1 with err_fe_cnt := (h1.err_fe_cnt + 1) % 4294967296,
                rx_buffer := { h1.rx_buffer with
                  drop_cnt := (h1.rx_buffer.drop_cnt + 1) % 65536 } }
    else h1
  let h3 := if sr.ne then
      { h2 with err_ne_cnt := (h2.err_ne_cnt + 1) % 4294967296,
                rx_buffer := { h2.rx_buffer with
                  drop_cnt := (h2.rx_buffer.drop_cnt + 1) % 65536 } }
    else h2
  let h4 := if sr.pe then
      { h3 with err_pe_cnt := (h3.err_pe_cnt + 1) % 4294967296,
                rx_buffer := { h3.rx_buffer with
                  drop_cnt := (h3.rx_buffer.drop_cnt + 1) % 65536 } }
    else h3
  let rx : usart2_handle_t × List usart_action_t :=
    if sr.ore || sr.fe || sr.ne || sr.pe then (h4, [usart_action_t.readDR])
    else if sr.rxne then
      if (h4.rx_buffer.head + 1) % 256 = h4.rx_buffer.tail then
        ({ h4 with rx_buffer := { h4.rx_buffer with
             drop_cnt := (h4.rx_buffer.drop_cnt + 1) % 65536 } },
         [usart_action_t.readDR])
      else
        ({ h4 with rx_buffer := { h4.rx_buffer with
             buffer_array := fun i =>
               if i = h4.rx_buffer.head then dr % 256
               else h4.rx_buffer.buffer_array i,
             head := (h4.rx_buffer.head + 1) % 256 } },
         [usart_action_t.readDR])
    else (h4, [])
  if sr.txe && txeie then
    if rx.1.tx_buffer.tail ≠ rx.1.tx_buffer.head then
      ({ rx.1 with tx_buffer := { rx.1.tx_buffer with
           tail := (rx.1.tx_buffer.tail + 1) % 256 } }, txeie,
       rx.2 ++ [usart_action_t.writeDR
         (rx.1.tx_buffer.buffer_array rx.1.tx_buffer.tail)])
    else (rx.1, false, rx.2)
  else (rx.1, txeie, rx.2)

/-- Claim C6.  In every ISR invocation with a line-error flag set, each
set flag increments its dedicated counter and the RX drop counter; the
data register is read (the first access of the invocation) but the byte
is not stored: RX head, tail and contents are unchanged even when the
receive-not-empty flag is also set, so error handling and normal receive
handling are mutually exclusive.  The handler is a total function
returning only the updated state, so no error is propagated as a call
failure. -/
theorem usart2_irq_error_spec (h : usart2_handle_t) (sr : usart2_sr_t)
    (txeie : Bool) (dr : Nat)
    (herr : (sr.ore || sr.fe || sr.ne || sr.pe) = true) :
    (usart2_irq_handler h sr txeie dr).1.err_ore_cnt =
      (if sr.ore then (h.err_ore_cnt + 1) % 4294967296 else h.err_ore_cnt) ∧
    (usart2_irq_handler h sr txeie dr).1.err_fe_cnt =
      (if sr.fe then (h.err_fe_cnt + 1) % 4294967296 else h.err_fe_cnt) ∧
    (usart2_irq_handler h sr txeie dr).1.err_ne_cnt =
      (if sr.ne then (h.err_ne_cnt + 1) % 4294967296 else h.err_ne_cnt) ∧
    (usart2_irq_handler h sr txeie dr).1.err_pe_cnt =
      (if sr.pe then (h.err_pe_cnt + 1) % 4294967296 else h.err_pe_cnt) ∧
    (usart2_irq_handler h sr txeie dr).1.rx_buffer.drop_cnt =
      (h.rx_buffer.drop_cnt +
        ((if sr.ore then 1 else 0) + (if sr.fe then 1 else 0) +
          (if sr.ne then 1 else 0) + (if sr.pe then 1 else 0))) % 65536 ∧
    (usart2_irq_handler h sr txeie dr).1.rx_buffer.head =
      h.rx_buffer.head ∧
    (usart2_irq_handler h sr txeie dr).1.rx_buffer.tail =
      h.rx_buffer.tail ∧
    (usart2_irq_handler h sr txeie dr).1.rx_buffer.buffer_array =
      h.rx_buffer.buffer_array ∧
    (∃ rest, (usart2_irq_handler h sr txeie dr).2.2 =
      usart_action_t.readDR :: rest) := by
  obtain ⟨ore, fe, ne, pe, rxne, txe⟩ := sr
  simp only at herr
  cases ore <;> cases fe <;> cases ne <;> cases pe <;>
    simp_all [usart2_irq_handler, Nat.mod_add_mod] <;>
    split_ifs <;>
    simp_all [Nat.mod_add_mod]

/-- Handle state matching a freshly initialised USART2 driver. -/
def usart2_test_handle : usart2_handle_t :=
  { rx_buffer := init_ring_buffer, tx_buffer := init_ring_buffer,
    err_ore_cnt := 0, err_fe_cnt := 0, err_ne_cnt := 0, err_pe_cnt := 0 }

/-- Witness for claim C6: an overrun with a simultaneously pending
received byte bumps the overrun counter and the RX drop counter and
stores nothing. -/
theorem usart2_irq_error_spec_witness :
    (usart2_irq_handler usart2_test_handle
      ⟨true, false, false, false, true, false⟩ false 65).1.err_ore_cnt = 1 ∧
    (usart2_irq_handler usart2_test_handle
      ⟨true, false, false, false, true, false⟩ false 65).1.rx_buffer.drop_cnt
        = 1 ∧
    (usart2_irq_handler usart2_test_handle
      ⟨true, false, false, false, true, false⟩ false 65).1.rx_buffer.head
        = 0 := by
  have hsp := usart2_irq_error_spec usart2_test_handle
    ⟨true, false, false, false, true, false⟩ false 65 (by decide)
  refine ⟨?_, ?_, ?_⟩
  · simpa using hsp.1
  · simpa using hsp.2.2.2.2.1
  · simpa using hsp.2.2.2.2.2.1

/-! ### EXTI dispatcher, `src/Src/drivers/exti.c` -/

/-- Observable events of `exti_dispatch`, in program order: clearing a
line's pending bit, and invoking a line's registered callback. -/
inductive exti_event_t where
  | clear : Nat → exti_event_t
  | invoke : Nat → exti_event_t
deriving DecidableEq

/-- Events of one loop iteration of `exti_dispatch` for `line`
(exti.c, lines 129-133): if the snapshot pending bit is set, the
pending bit is cleared first (`EXTI->PR = 1u << line`,
write-1-to-clear) and then, when a callback is registered, it is
invoked; otherwise nothing happens.  `pending` is the PR snapshot,
`regs l` whether `callbk_array[l]` is non-null. -/
def exti_dispatch_line (pending regs : Nat → Bool) (line : Nat) :
    List exti_event_t :=
  if pending line then
    exti_event_t.clear line ::
      (if regs line then [exti_event_t.invoke line] else [])
  else []

/-- One loop iteration of `exti_dispatch` acting on the live PR
contents and the accumulated event trace.  A write of `1u << line` to
PR clears exactly that bit (write-1-to-clear hardware semantics);
unwritten bits keep their value. -/
def exti_dispatch_step (pending regs : Nat → Bool)
    (st : (Nat → Bool) × List exti_event_t) (line : Nat) :
    (Nat → Bool) × List exti_event_t :=
  ((if pending line then fun l => if l = line then false else st.1 l
    else st.1),
   st.2 ++ exti_dispatch_line pending regs line)

/-- Model of `exti_dispatch` (exti.c, lines 124-136): the PR register
is read once into a snapshot at entry, and lines `first..last` are
scanned in increasing order.  `pr l` is the PR bit of line `l` at
entry.  Returns the final PR contents and the chronological event
trace. -/
def exti_dispatch (pr regs : Nat → Bool) (first last : Nat) :
    (Nat → Bool) × List exti_event_t :=
  (List.range' first (last + 1 - first)).foldl
    (exti_dispatch_step pr regs) (pr, [])

/-- Concatenated per-line events of the dispatch loop over a list of
lines. -/
def exti_trace (pending regs : Nat → Bool) : List Nat → List exti_event_t
  | [] => []
  | l :: ls => exti_dispatch_line pending regs l ++ exti_trace pending regs ls

/-- The trace component of the dispatch fold is the concatenation of
the per-line events, in scan order. -/
theorem exti_fold_trace (pending regs : Nat → Bool) :
    ∀ (L : List Nat) (p0 : Nat → Bool) (tr : List exti_event_t),
      (L.foldl (exti_dispatch_step pending regs) (p0, tr)).2 =
        tr ++ exti_trace pending regs L := by
  intro L
  induction L with
  | nil =>
    intro p0 tr
    simp [exti_trace]
  | cons l ls ih =>
    intro p0 tr
    simp only [List.foldl_cons, exti_trace]
    rw [show exti_dispatch_step pending regs (p0, tr) l =
      ((exti_dispatch_step pending regs (p0, tr) l).1,
        tr ++ exti_dispatch_line pending regs l) from rfl]
    rw [ih]
    simp

/-- The PR component of the dispatch fold: a scanned line whose
snapshot pending bit is set ends up cleared, and an already-cleared bit
is never set again. -/
theorem exti_fold_pr (pending regs : Nat → Bool) :
    ∀ (L : List Nat) (p0 : Nat → Bool) (tr : List exti_event_t) (l : Nat),
      (l ∈ L ∧ pending l = true) ∨ p0 l = false →
      (L.foldl (exti_dispatch_step pending regs) (p0, tr)).1 l = false := by
  intro L
  induction L with
  | nil =>
    intro p0 tr l hl
    rcases hl with ⟨hmem, _⟩ | hfalse
    · simp at hmem
    · simpa using hfalse
  | cons a ls ih =>
    intro p0 tr l hl
    simp only [List.foldl_cons]
    apply ih
    rcases hl with ⟨hmem, hpend⟩ | hfalse
    · rcases List.mem_cons.mp hmem with heq | hmem2
      · subst heq
        right
        show (exti_dispatch_step pending regs (p0, tr) l).1 l = false
        simp [exti_dispatch_step, hpend]
      · exact Or.inl ⟨hmem2, hpend⟩
    · right
      show (exti_dispatch_step pending regs (p0, tr) a).1 l = false
      unfold exti_dispatch_step
      by_cases hpa : pending a
      · by_cases hla : l = a
        · simp [hpa, hla]
        · simp [hpa, hla, hfalse]
      · simp [hpa, hfalse]

/-- An invoke event for `line` can only come from the iteration of
`line` itself, with its pending bit set and a callback registered. -/
theorem exti_invoke_mem_line (pending regs : Nat → Bool) (a line : Nat)
    (hmem : exti_event_t.invoke line ∈ exti_dispatch_line pending regs a) :
    a = line ∧ pending a = true ∧ regs a = true := by
  unfold exti_dispatch_line at hmem
  split_ifs at hmem with hp hr
  · rcases List.mem_cons.mp hmem with h | h
    · exact absurd h (by simp)
    · rw [List.mem_singleton] at h
      injection h with h2
      exact ⟨h2.symm, hp, hr⟩
  · rcases List.mem_cons.mp hmem with h | h
    · exact absurd h (by simp)
    · simp at h
  · simp at hmem

/-- No invoke event for `line` appears in the trace of a scan that does
not include `line`, nor in any trace when no callback is registered for
`line`. -/
theorem exti_invoke_not_mem (pending regs : Nat → Bool) :
    ∀ (L : List Nat) (line : Nat), line ∉ L ∨ regs line = false →
      exti_event_t.invoke line ∉ exti_trace pending regs L := by
  intro L
  induction L with
  | nil =>
    intro line _
    simp [exti_trace]
  | cons a ls ih =>
    intro line hl hmem
    unfold exti_trace at hmem
    rcases List.mem_append.mp hmem with h | h
    · obtain ⟨ha, hp, hr⟩ := exti_invoke_mem_line pending regs a line h
      subst ha
      rcases hl with hnm | hreg
      · exact hnm (List.mem_cons_self a ls)
      · rw [hreg] at hr
        cases hr
    · refine ih line ?_ h
      rcases hl with hnm | hreg
      · exact Or.inl fun hx => hnm (List.mem_cons_of_mem a hx)
      · exact Or.inr hreg

/-- The trace over a concatenation of scan lists splits accordingly. -/
theorem exti_trace_append (pending regs : Nat → Bool) :
    ∀ A B : List Nat, exti_trace pending regs (A ++ B) =
      exti_trace pending regs A ++ exti_trace pending regs B := by
  intro A B
  induction A with
  | nil => simp [exti_trace]
  | cons a ls ih =>
    simp only [List.cons_append, exti_trace, List.append_eq, ih,
      List.append_assoc]

/-- Claim C5.  For every `dispatch(first, last)` call and every line in
`[first, last]` whose pending bit is set at entry: when a callback is
registered, the trace contains the clear of the pending bit immediately
followed by the single invocation of that line's callback — the
pending bit is cleared strictly before the callback runs, and the
callback runs exactly once; when no callback is registered, the line
produces no invocation (it is skipped silently). -/
theorem exti_dispatch_spec (pr regs : Nat → Bool) (first last line : Nat)
    (h1 : first ≤ line) (h2 : line ≤ last) (hpend : pr line = true) :
    (regs line = true →
      ∃ E1 E2,
        (exti_dispatch pr regs first last).2 =
          E1 ++ exti_event_t.clear line :: exti_event_t.invoke line :: E2 ∧
        exti_event_t.invoke line ∉ E1 ∧ exti_event_t.invoke line ∉ E2) ∧
    (regs line = false →
      exti_event_t.invoke line ∉ (exti_dispatch pr regs first last).2) := by
  have htr : (exti_dispatch pr regs first last).2 =
      exti_trace pr regs (List.range' first (last + 1 - first)) := by
    unfold exti_dispatch
    rw [exti_fold_trace]
    simp
  have hmem : line ∈ List.range' first (last + 1 - first) :=
    List.mem_range'_1.mpr ⟨h1, by omega⟩
  constructor
  · intro hreg
    obtain ⟨A, B, hAB⟩ := List.append_of_mem hmem
    have hnodup : (List.range' first (last + 1 - first)).Nodup :=
      List.nodup_range' ..
    rw [hAB] at hnodup
    rw [List.nodup_append] at hnodup
    obtain ⟨hA, hB, hdisj⟩ := hnodup
    have hlineA : line ∉ A := fun hx =>
      hdisj hx (List.mem_cons_self line B)
    have hlineB : line ∉ B := by
      rw [List.nodup_cons] at hB
      exact hB.1
    refine ⟨exti_trace pr regs A, exti_trace pr regs B, ?_, ?_, ?_⟩
    · rw [htr, hAB, exti_trace_append]
      have hline : exti_trace pr regs (line :: B) =
          exti_event_t.clear line :: exti_event_t.invoke line ::
            exti_trace pr regs B := by
        show exti_dispatch_line pr regs line ++ exti_trace pr regs B = _
        rw [exti_dispatch_line, if_pos hpend, if_pos hreg]
        rfl
      rw [hline]
    · exact exti_invoke_not_mem pr regs A line (Or.inl hlineA)
    · exact exti_invoke_not_mem pr regs B line (Or.inl hlineB)
  · intro hreg
    rw [htr]
    exact exti_invoke_not_mem pr regs _ line (Or.inr hreg)

/-- Witness for claim C5: lines 13 and 14 pending, callback registered
only for line 13; `dispatch(10, 15)` invokes the line-13 callback
exactly once right after clearing its pending bit, and produces no
invocation for the unregistered line 14. -/
theorem exti_dispatch_spec_witness :
    (∃ E1 E2,
      (exti_dispatch (fun l => decide (l = 13 ∨ l = 14))
          (fun l => decide (l = 13)) 10 15).2 =
        E1 ++ exti_event_t.clear 13 :: exti_event_t.invoke 13 :: E2 ∧
      exti_event_t.invoke 13 ∉ E1 ∧ exti_event_t.invoke 13 ∉ E2) ∧
    exti_event_t.invoke 14 ∉
      (exti_dispatch (fun l => decide (l = 13 ∨ l = 14))
        (fun l => decide (l = 13)) 10 15).2 :=
  ⟨(exti_dispatch_spec (fun l => decide (l = 13 ∨ l = 14))
      (fun l => decide (l = 13)) 10 15 13 (by decide) (by decide)
      (by decide)).1 (by decide),
   (exti_dispatch_spec (fun l => decide (l = 13 ∨ l = 14))
      (fun l => decide (l = 13)) 10 15 14 (by decide) (by decide)
      (by decide)).2 (by decide)⟩

/-- Claim C10.  For every `dispatch(first, last)` call and every line in
`[first, last]` whose pending bit was set in the snapshot taken at
entry, the pending bit is cleared in the final PR contents regardless of
whether a callback is registered: a pending event on an unregistered
line is consumed and discarded, not left pending for a later
dispatch. -/
theorem exti_dispatch_clears_pending (pr regs : Nat → Bool)
    (first last line : Nat) (h1 : first ≤ line) (h2 : line ≤ last)
    (hpend : pr line = true) :
    (exti_dispatch pr regs first last).1 line = false := by
  apply exti_fold_pr
  exact Or.inl ⟨List.mem_range'_1.mpr ⟨h1, by omega⟩, hpend⟩

/-- Witness for claim C10: line 13 pending with no callback registered
for any line; `dispatch(10, 15)` still clears the pending bit. -/
theorem exti_dispatch_clears_pending_witness :
    (exti_dispatch (fun l => decide (l = 13)) (fun _ => false) 10 15).1 13
      = false :=
  exti_dispatch_clears_pending (fun l => decide (l = 13)) (fun _ => false)
    10 15 13 (by decide) (by decide) (by decide)
